import Mathlib

/-!
# Verification of the font2header tile-based delta video codec

Shallow embedding of the codec logic of the repository (the gif2rvv v5
encoder, the legacy RVV2 encoder and the RV v1/v2 video encoders):
pixel quantizers, tile bit-packing, frame differencing, keyframe
classification, GIF canvas compositing/disposal and the skip-RLE
tile-update encoder, together with proofs of the specified properties.

Buffers are modelled as `List Nat` (one byte or one sample per entry),
frame data as structures; every definition is a direct translation of
the corresponding JavaScript function.
-/

namespace RVV

/-- `rgb332` from `src/videoConverter/rv.js`:
`(r >> 5) | ((g >> 5) << 3) | (b & 0b11000000)`. -/
def rgb332 (r g b : Nat) : Nat :=
  (r >>> 5) ||| ((g >>> 5) <<< 3) ||| (b &&& 0b11000000)

/-- `rgb333` from `src/videoConverter/rv.js`:
`((b >> 5) << 6) | ((g >> 5) << 3) | (r >> 5)`. -/
def rgb333 (r g b : Nat) : Nat :=
  ((b >>> 5) <<< 6) ||| ((g >>> 5) <<< 3) ||| (r >>> 5)

/-- Keyframe classification of the gif2rvv v5 encoder
(`src/unnamed/part_001`):
`frameIndex === 0 || (KEYFRAME_INTERVAL > 0 && frameIndex % KEYFRAME_INTERVAL === 0)`. -/
def isKeyframe (frameIndex kfInterval : Nat) : Bool :=
  frameIndex == 0 || (decide (0 < kfInterval) && frameIndex % kfInterval == 0)

/-- One changed-tile record: tile index plus the tile's packed bytes. -/
structure Update where
  index : Nat
  data : List Nat
deriving Repr, DecidableEq

/-- The skip-byte emission loop of the skip-RLE encoder
(`src/unnamed/part_001`, `src/videoConverter/rv.js`):
`while (skip >= 255) { emit 255; skip -= 255; } emit skip;`. -/
def emitSkip (gap : Nat) : List Nat :=
  if 255 ≤ gap then 255 :: emitSkip (gap - 255) else [gap]
termination_by gap
decreasing_by omega

/-- The per-frame tile-update emission loop of the skip-RLE encoder:
each update contributes its skip bytes followed by its packed tile
data, and `prevIndex` becomes `index + 1`. -/
def encodeUpdates (prevIndex : Nat) : List Update → List Nat
  | [] => []
  | u :: rest => emitSkip (u.index - prevIndex) ++ u.data ++ encodeUpdates (u.index + 1) rest

/-- A decoded GIF frame as consumed by the encoders: placement
rectangle, source pixels (row-major inside the rectangle), optional
transparent index and disposal method. -/
structure GifFrame where
  left : Nat
  top : Nat
  width : Nat
  height : Nat
  pixels : List Nat
  transparentIndex : Option Nat
  disposalType : Nat
deriving Repr, DecidableEq

/-- `applyDisposal` from `src/unnamed/part_001` / `part_000`: disposal
type 2 clears the whole canvas to index 0 (`gifFB.fill(0)`); every
other disposal type leaves the canvas untouched. -/
def applyDisposal (fb : List Nat) (f : GifFrame) : List Nat :=
  if f.disposalType = 2 then List.replicate fb.length 0 else fb

/-- Body of the inner loop of `blitFrame`: skip the pixel when it
equals the transparent index, otherwise store it at
`(top + y) * WIDTH + (left + x)`. -/
def blitPixel (W : Nat) (f : GifFrame) (fb : List Nat) (y x : Nat) : List Nat :=
  let pix := f.pixels.getD (y * f.width + x) 0
  match f.transparentIndex with
  | some t => if pix = t then fb else fb.set ((f.top + y) * W + (f.left + x)) pix
  | none => fb.set ((f.top + y) * W + (f.left + x)) pix

/-- `blitFrame` from `src/unnamed/part_001` / `part_000`: composite the
frame rectangle onto the canvas, row by row. -/
def blitFrame (W : Nat) (fb : List Nat) (f : GifFrame) : List Nat :=
  (List.range f.height).foldl (fun acc y =>
    (List.range f.width).foldl (fun acc2 x => blitPixel W f acc2 y x) acc) fb

/-- The copy condition of `blitFrame`'s inner loop: a source pixel is
written unless a transparent index is declared and the pixel equals it
(`if (transparent !== undefined && pix === transparent) continue;`). -/
def copiesPixel (f : GifFrame) (i : Nat) : Bool :=
  match f.transparentIndex with
  | none => true
  | some t => !(f.pixels.getD i 0 == t)

/-- One step of the inner bit loop of `packTile`:
`buf[byte] |= bitValue << (7 - bit); bit++; if (bit === 8) { bit = 0; byte++; }`.
The state is `(buf, bit, byte)`. -/
def packBit (st : List Nat × Nat × Nat) (v : Nat) : List Nat × Nat × Nat :=
  let buf := st.1
  let bit := st.2.1
  let byt := st.2.2
  let buf2 := buf.set byt (buf.getD byt 0 ||| (v <<< (7 - bit)))
  if bit + 1 = 8 then (buf2, 0, byt + 1) else (buf2, bit + 1, byt)

/-- The bit values one pixel contributes to the stream, in the order of
`packTile`'s inner loop `for (let b = BPP - 1; b >= 0; b--) (p >> b) & 1`. -/
def pixelBits (bpp p : Nat) : List Nat :=
  (List.range bpp).map (fun k => (p >>> (bpp - 1 - k)) &&& 1)

/-- `packTile` from `src/unnamed/part_001` / `part_000`: pack the
pixels' low `bpp` bits MSB-first into a buffer of
`(TILE * TILE * BPP) >> 3` bytes. -/
def packTile (bpp : Nat) (pixels : List Nat) : List Nat :=
  (pixels.foldl (fun st p => (pixelBits bpp p).foldl packBit st)
    (List.replicate ((8 * 8 * bpp) >>> 3) 0, 0, 0)).1

/-- The 64 canvas samples of the 8×8 tile at tile coordinates
`(tx, ty)`, in tile-row-major order, as gathered by `extractTiles`. -/
def tilePixels (W : Nat) (fb : List Nat) (ty tx : Nat) : List Nat :=
  (List.range 8).flatMap (fun y =>
    (List.range 8).map (fun x => fb.getD ((ty * 8 + y) * W + (tx * 8 + x)) 0))

/-- `extractTiles` from `src/unnamed/part_001`: all `tilesX × tilesY`
tiles in row-major order, each packed with `packTile`. -/
def extractTiles (bpp W tilesX tilesY : Nat) (fb : List Nat) : List (List Nat) :=
  (List.range tilesY).flatMap (fun ty =>
    (List.range tilesX).map (fun tx => packTile bpp (tilePixels W fb ty tx)))

/-- Bit `n` of the packed bitstream held by a byte buffer: bit
`n − 8N` (counted from the most significant side) of byte `N = n / 8`.
Modelled from the spec: byte `N` holds bits `[8N, 8N+8)` of the
continuous bitstream, most-significant-bit-first. -/
def getBit (buf : List Nat) (n : Nat) : Nat :=
  (buf.getD (n / 8) 0 >>> (7 - n % 8)) &&& 1

/-- Modelled from the spec: unpacking pixel `i` reads its `bpp` bits
MSB-first from the packed buffer. The repository ships no unpacker;
this is the decoder the spec's round-trip property refers to. -/
def unpackPixel (bpp : Nat) (buf : List Nat) (i : Nat) : Nat :=
  (List.range bpp).foldl (fun acc k => acc * 2 + getBit buf (i * bpp + k)) 0

/-- Modelled from the spec: unpack all 64 pixels of one tile. -/
def unpackTile (bpp : Nat) (buf : List Nat) : List Nat :=
  (List.range 64).map (unpackPixel bpp buf)

/-- The update-selection branch of the gif2rvv v5 main loop
(`src/unnamed/part_001`): on a keyframe or when no previous tiles
exist, push every tile; otherwise push exactly the tiles whose packed
bytes differ from the same-index previous tile. -/
def selectUpdates (tileCount : Nat) (kf : Bool)
    (prevTiles : Option (List (List Nat))) (tiles : List (List Nat)) : List Update :=
  match kf, prevTiles with
  | true, _ => (List.range tileCount).map (fun i => ⟨i, tiles.getD i []⟩)
  | false, none => (List.range tileCount).map (fun i => ⟨i, tiles.getD i []⟩)
  | false, some prev =>
      ((List.range tileCount).filter
        (fun i => !(tiles.getD i [] == prev.getD i []))).map
        (fun i => ⟨i, tiles.getD i []⟩)

/-- The diff-selection branch of the legacy RVV2 main loop
(`src/unnamed/part_000`): before the first frame push every tile,
afterwards push exactly the changed tiles. -/
def legacyDiffs (tileCount : Nat)
    (prevTiles : Option (List (List Nat))) (tiles : List (List Nat)) : List Update :=
  match prevTiles with
  | none => (List.range tileCount).map (fun i => ⟨i, tiles.getD i []⟩)
  | some prev =>
      ((List.range tileCount).filter
        (fun i => !(tiles.getD i [] == prev.getD i []))).map
        (fun i => ⟨i, tiles.getD i []⟩)

/-- A 16-bit little-endian value as written by `writeUInt16LE`. -/
def u16le (n : Nat) : List Nat := [n % 256, n / 256 % 256]

/-- One serialized TileUpdate of the legacy RVV2 format
(`src/unnamed/part_000`): `uint16 LE` tile index followed by the packed
tile bytes, with no skip compression. -/
def legacyUpdateBytes (d : Update) : List Nat := u16le d.index ++ d.data

/-- One serialized per-frame record of the legacy RVV2 format: a flat
`uint16 LE` update count followed by the `(index, data)` pairs. -/
def legacyRecordBytes (diffs : List Update) : List Nat :=
  u16le diffs.length ++ diffs.flatMap legacyUpdateBytes

/-- One structured per-frame record of the RVV v5 / RV v2 stream:
keyframe flag, `update_count`, and the skip-RLE payload bytes. -/
structure FrameRecord where
  isKey : Bool
  updateCount : Nat
  payload : List Nat
deriving Repr, DecidableEq

/-- Configuration of one gif2rvv v5 encoding session. -/
structure EncConfig where
  bpp : Nat
  fps : Nat
  kfInterval : Nat
  width : Nat
  height : Nat
deriving Repr, DecidableEq

/-- Mutable state of the gif2rvv v5 main loop: the persistent GIF
canvas, the previous frame's tile buffers, the previous frame, and the
records emitted so far. -/
structure EncState where
  fb : List Nat
  prevTiles : Option (List (List Nat))
  prevFrame : Option GifFrame
  records : List FrameRecord
deriving Repr, DecidableEq

/-- Tiles per row of the canvas (`TILES_X = WIDTH / TILE`). -/
def tilesX (cfg : EncConfig) : Nat := cfg.width / 8

/-- Tile rows of the canvas (`TILES_Y = HEIGHT / TILE`). -/
def tilesY (cfg : EncConfig) : Nat := cfg.height / 8

/-- Total tile count (`TILE_COUNT = TILES_X * TILES_Y`). -/
def tileCount (cfg : EncConfig) : Nat := tilesX cfg * tilesY cfg

/-- One iteration of the gif2rvv v5 `frames.forEach` body
(`src/unnamed/part_001`): apply the previous frame's disposal, blit the
current frame, extract and diff tiles, emit one record, and replace
`prevTiles` and `prevFrame`. -/
def stepFrame (cfg : EncConfig) (st : EncState) (frame : GifFrame)
    (frameIndex : Nat) : EncState :=
  let fb1 := match st.prevFrame with
    | some pf => applyDisposal st.fb pf
    | none => st.fb
  let fb2 := blitFrame cfg.width fb1 frame
  let tiles := extractTiles cfg.bpp cfg.width (tilesX cfg) (tilesY cfg) fb2
  let kf := isKeyframe frameIndex cfg.kfInterval
  let updates := selectUpdates (tileCount cfg) kf st.prevTiles tiles
  { fb := fb2
    prevTiles := some tiles
    prevFrame := some frame
    records := st.records ++ [⟨kf, updates.length, encodeUpdates 0 updates⟩] }

/-- The gif2rvv v5 `frames.forEach` loop with its running frame index. -/
def runFrames (cfg : EncConfig) (st : EncState) (frameIndex : Nat) :
    List GifFrame → EncState
  | [] => st
  | f :: rest => runFrames cfg (stepFrame cfg st f frameIndex) (frameIndex + 1) rest

/-- Initial state of a gif2rvv v5 session: zero-filled canvas
(`gifFB.fill(0)`), no previous tiles, no previous frame, no output. -/
def initState (cfg : EncConfig) : EncState :=
  ⟨List.replicate (cfg.width * cfg.height) 0, none, none, []⟩

/-- Whole-stream encoding state of a gif2rvv v5 session. -/
def encodeGifState (cfg : EncConfig) (frames : List GifFrame) : EncState :=
  runFrames cfg (initState cfg) 0 frames

/-- The RVV v5 container header fields (`src/unnamed/part_001`):
`frameCount` is the value passed to `writeUInt16LE`, the length of the
decoded frame list. -/
structure RVVHeader where
  version : Nat
  width : Nat
  height : Nat
  tileW : Nat
  tileH : Nat
  bpp : Nat
  fps : Nat
  frameCount : Nat
  paletteSize : Nat
  kfInterval : Nat
deriving Repr, DecidableEq

/-- The gif2rvv v5 container: the header written before the loop runs
(with `frame_count = frames.length`) and the frame records the loop
emits. -/
def encodeGif (cfg : EncConfig) (frames : List GifFrame) :
    RVVHeader × List FrameRecord :=
  (⟨5, cfg.width, cfg.height, 8, 8, cfg.bpp, cfg.fps, frames.length,
      2 ^ cfg.bpp, cfg.kfInterval⟩,
   (encodeGifState cfg frames).records)

end RVV

namespace RVV

theorem emitSkip_spec (gap : Nat) :
    emitSkip gap = List.replicate (gap / 255) 255 ++ [gap % 255] := by
  induction gap using Nat.strong_induction_on with
  | _ gap ih =>
    rw [emitSkip]
    by_cases h : 255 ≤ gap
    · rw [if_pos h, ih (gap - 255) (by omega)]
      have hdiv : gap / 255 = (gap - 255) / 255 + 1 := by omega
      have hmod : gap % 255 = (gap - 255) % 255 := by omega
      rw [hdiv, hmod, List.replicate_succ]
      simp
    · rw [if_neg h]
      have hdiv : gap / 255 = 0 := by omega
      have hmod : gap % 255 = gap := by omega
      rw [hdiv, hmod]
      simp

/-- **C1.** The skip-RLE encoder emits, for the update at `index` with
`gap = index − prevIndex`, one byte 255 for each full 255 contained in
the gap, then a terminal byte holding the remaining gap (0–254),
followed immediately by the tile's packed bytes, and continues with
`prevIndex = index + 1`; a gap of 254 encodes as `[254]`, 255 as
`[255, 0]` and 256 as `[255, 1]`. -/
theorem skip_rle_encoding (prevIndex : Nat) (u : Update) (rest : List Update)
    (hasc : prevIndex ≤ u.index) :
    encodeUpdates prevIndex (u :: rest) =
      (List.replicate ((u.index - prevIndex) / 255) 255 ++ [(u.index - prevIndex) % 255])
        ++ u.data ++ encodeUpdates (u.index + 1) rest ∧
    (u.index - prevIndex) % 255 ≤ 254 ∧
    emitSkip 254 = [254] ∧ emitSkip 255 = [255, 0] ∧ emitSkip 256 = [255, 1] := by
  refine ⟨?_, ?_, ?_, ?_, ?_⟩
  · rw [encodeUpdates, emitSkip_spec]
  · have := Nat.mod_lt (u.index - prevIndex) (y := 255) (by omega)
    omega
  · rw [emitSkip, if_neg (by omega)]
  · rw [emitSkip, if_pos (by omega), emitSkip, if_neg (by omega)]
  · rw [emitSkip, if_pos (by omega), emitSkip, if_neg (by omega)]

/-- Witness for `skip_rle_encoding` at a concrete ascending update list. -/
theorem skip_rle_encoding_witness :
    (0 : Nat) ≤ 256 ∧
    (encodeUpdates 0 [⟨256, [7]⟩] =
      (List.replicate ((256 - 0) / 255) 255 ++ [(256 - 0) % 255])
        ++ [7] ++ encodeUpdates (256 + 1) [] ∧
    (256 - 0) % 255 ≤ 254 ∧
    emitSkip 254 = [254] ∧ emitSkip 255 = [255, 0] ∧ emitSkip 256 = [255, 1]) :=
  ⟨by omega, skip_rle_encoding 0 ⟨256, [7]⟩ [] (by omega)⟩

/-- **C3.** A frame with 0-based index `i` is a keyframe iff `i = 0` or
the keyframe interval `K` is positive and divides `i`; with `K = 0`
only the first frame is a keyframe. -/
theorem keyframe_classification (i K : Nat) :
    (isKeyframe i K = true ↔ (i = 0 ∨ (0 < K ∧ i % K = 0))) ∧
    (isKeyframe i 0 = true ↔ i = 0) := by
  constructor
  · simp [isKeyframe]
  · simp [isKeyframe]

/-- **C5.** The pixel quantizers are the stated pure functions of their
inputs: `rgb332` and `rgb333` compute exactly the bit-shift/mask
formulas of the source, `rgb332 255 255 255 = 0b11111111`,
`rgb332 0 0 0 = 0`, and `rgb333` always yields a value below `2^9`
for 8-bit channel inputs. -/
theorem quantizer_spec (r g b : Nat) (hr : r ≤ 255) (hg : g ≤ 255) (hb : b ≤ 255) :
    rgb332 r g b = (r >>> 5) ||| ((g >>> 5) <<< 3) ||| (b &&& 0b11000000) ∧
    rgb333 r g b = ((b >>> 5) <<< 6) ||| ((g >>> 5) <<< 3) ||| (r >>> 5) ∧
    rgb332 255 255 255 = 0b11111111 ∧
    rgb332 0 0 0 = 0 ∧
    rgb333 r g b < 512 := by
  refine ⟨rfl, rfl, by decide, by decide, ?_⟩
  have h1 : (b >>> 5) <<< 6 < 512 := by
    have : b >>> 5 < 8 := by
      simp only [Nat.shiftRight_eq_div_pow]
      omega
    simp only [Nat.shiftLeft_eq]
    omega
  have h2 : (g >>> 5) <<< 3 < 512 := by
    have : g >>> 5 < 8 := by
      simp only [Nat.shiftRight_eq_div_pow]
      omega
    simp only [Nat.shiftLeft_eq]
    omega
  have h3 : r >>> 5 < 512 := by
    simp only [Nat.shiftRight_eq_div_pow]
    omega
  have h9 : (512 : Nat) = 2 ^ 9 := by norm_num
  rw [rgb333]
  rw [h9] at h1 h2 h3 ⊢
  exact Nat.or_lt_two_pow (Nat.or_lt_two_pow h1 h2) h3

theorem map_index_range (tc : Nat) (tiles : List (List Nat)) :
    ((List.range tc).map (fun i => (⟨i, tiles.getD i []⟩ : Update))).map
      (fun u => u.index) = List.range tc := by
  have hcomp : ((fun u : Update => u.index) ∘
      fun i => (⟨i, tiles.getD i []⟩ : Update)) = id := by
    funext i
    rfl
  rw [List.map_map, hcomp, List.map_id]

theorem mem_map_index_filter (tc : Nat) (prev tiles : List (List Nat)) (i : Nat) :
    i ∈ (((List.range tc).filter
        (fun j => !(tiles.getD j [] == prev.getD j []))).map
          (fun j => (⟨j, tiles.getD j []⟩ : Update))).map (fun u => u.index) ↔
      i < tc ∧ tiles.getD i [] ≠ prev.getD i [] := by
  simp only [List.map_map, List.mem_map, List.mem_filter, List.mem_range,
    Function.comp]
  constructor
  · rintro ⟨j, ⟨⟨hj, hne⟩, rfl⟩⟩
    refine ⟨hj, ?_⟩
    simpa using hne
  · rintro ⟨hi, hne⟩
    exact ⟨i, ⟨hi, by simpa using hne⟩, rfl⟩

/-- **C2.** On a keyframe, or with no previous tiles, the update list is
every tile index `0..tileCount−1` in ascending order; otherwise tile `i`
is listed iff its packed bytes differ from the same-index previous
buffer; hence an unchanged non-keyframe frame yields exactly 0 updates. -/
theorem update_selection (tc : Nat) (prev tiles : List (List Nat)) :
    ((selectUpdates tc true (some prev) tiles).map (fun u => u.index) =
        List.range tc) ∧
    ((selectUpdates tc false none tiles).map (fun u => u.index) =
        List.range tc) ∧
    (∀ i, i ∈ (selectUpdates tc false (some prev) tiles).map (fun u => u.index) ↔
        i < tc ∧ tiles.getD i [] ≠ prev.getD i []) ∧
    (selectUpdates tc false (some tiles) tiles).length = 0 := by
  refine ⟨map_index_range tc tiles, map_index_range tc tiles,
    fun i => mem_map_index_filter tc prev tiles i, ?_⟩
  simp [selectUpdates]

/-- **C10.** Applying a frame's disposal directive clears the whole
canvas to palette index 0 exactly when the disposal type is 2
(restore-to-background); every other disposal type, including
restore-to-previous (3), leaves the canvas unchanged. The fill value is
the constant 0, independent of any declared background color. -/
theorem disposal_semantics (fb : List Nat) (f : GifFrame) :
    (applyDisposal fb f =
        if f.disposalType = 2 then List.replicate fb.length 0 else fb) ∧
    (applyDisposal fb f).length = fb.length ∧
    (f.disposalType = 2 ∨ applyDisposal fb f = fb) ∧
    (f.disposalType ≠ 2 ∨
      ((applyDisposal fb f).all (fun v => v == 0) = true ∧
        applyDisposal fb f = List.replicate fb.length 0)) := by
  by_cases h : f.disposalType = 2
  · refine ⟨by simp [applyDisposal, h], by simp [applyDisposal, h], Or.inl h,
      Or.inr ⟨?_, by simp [applyDisposal, h]⟩⟩
    simp [applyDisposal, h, List.all_eq_true]
  · exact ⟨by simp [applyDisposal, h], by simp [applyDisposal, h],
      Or.inr (by simp [applyDisposal, h]), Or.inl h⟩

theorem runFrames_prevTiles (cfg : EncConfig) (l : List GifFrame) :
    ∀ (st : EncState) (idx : Nat), l ≠ [] →
      (runFrames cfg st idx l).prevTiles =
        some (extractTiles cfg.bpp cfg.width (tilesX cfg) (tilesY cfg)
          (runFrames cfg st idx l).fb) := by
  induction l with
  | nil => intro st idx h; exact absurd rfl h
  | cons f rest ih =>
      intro st idx _
      cases rest with
      | nil => rfl
      | cons g tl =>
          exact ih (stepFrame cfg st f idx) (idx + 1) (by simp)

/-- **C6.** After every processed frame — keyframes included — the
retained `prevTiles` is exactly the tile-buffer sequence extracted from
the just-encoded frame's canvas, both for a single loop iteration and
for the state after a whole nonempty stream. -/
theorem prev_tiles_track_current_frame (cfg : EncConfig) (st : EncState)
    (frame : GifFrame) (idx : Nat) (frames : List GifFrame) (h : frames ≠ []) :
    ((stepFrame cfg st frame idx).prevTiles =
      some (extractTiles cfg.bpp cfg.width (tilesX cfg) (tilesY cfg)
        (stepFrame cfg st frame idx).fb)) ∧
    ((encodeGifState cfg frames).prevTiles =
      some (extractTiles cfg.bpp cfg.width (tilesX cfg) (tilesY cfg)
        (encodeGifState cfg frames).fb)) :=
  ⟨rfl, runFrames_prevTiles cfg frames (initState cfg) 0 h⟩

/-- Witness for `prev_tiles_track_current_frame` at a one-frame stream. -/
theorem prev_tiles_track_current_frame_witness :
    ([(⟨0, 0, 8, 8, List.replicate 64 1, none, 0⟩ : GifFrame)] ≠ []) ∧
    (((stepFrame ⟨1, 10, 0, 8, 8⟩ (initState ⟨1, 10, 0, 8, 8⟩)
        ⟨0, 0, 8, 8, List.replicate 64 1, none, 0⟩ 0).prevTiles =
      some (extractTiles 1 8 (tilesX ⟨1, 10, 0, 8, 8⟩) (tilesY ⟨1, 10, 0, 8, 8⟩)
        (stepFrame ⟨1, 10, 0, 8, 8⟩ (initState ⟨1, 10, 0, 8, 8⟩)
          ⟨0, 0, 8, 8, List.replicate 64 1, none, 0⟩ 0).fb)) ∧
    ((encodeGifState ⟨1, 10, 0, 8, 8⟩
        [⟨0, 0, 8, 8, List.replicate 64 1, none, 0⟩]).prevTiles =
      some (extractTiles 1 8 (tilesX ⟨1, 10, 0, 8, 8⟩) (tilesY ⟨1, 10, 0, 8, 8⟩)
        (encodeGifState ⟨1, 10, 0, 8, 8⟩
          [⟨0, 0, 8, 8, List.replicate 64 1, none, 0⟩]).fb))) :=
  ⟨by simp,
    prev_tiles_track_current_frame ⟨1, 10, 0, 8, 8⟩ (initState ⟨1, 10, 0, 8, 8⟩)
      ⟨0, 0, 8, 8, List.replicate 64 1, none, 0⟩ 0
      [⟨0, 0, 8, 8, List.replicate 64 1, none, 0⟩] (by simp)⟩

theorem runFrames_records_length (cfg : EncConfig) (l : List GifFrame) :
    ∀ (st : EncState) (idx : Nat),
      (runFrames cfg st idx l).records.length = st.records.length + l.length := by
  induction l with
  | nil => intro st idx; simp [runFrames]
  | cons f rest ih =>
      intro st idx
      rw [runFrames, ih]
      simp [stepFrame]
      omega

/-- **C7.** The container header's declared frame count (written before
the frame records) equals the number of FrameRecords subsequently
emitted: the loop emits exactly one record per decoded frame, and the
header stores the decoded frame list's length. (The hypothesis models
`writeUInt16LE`'s range check, which aborts for counts above 0xFFFF.) -/
theorem frame_count_invariant (cfg : EncConfig) (frames : List GifFrame)
    (h : frames.length ≤ 65535) :
    (encodeGif cfg frames).1.frameCount = frames.length ∧
    (encodeGif cfg frames).2.length = frames.length ∧
    (encodeGif cfg frames).2.length = (encodeGif cfg frames).1.frameCount := by
  have hrec : (encodeGif cfg frames).2.length = frames.length := by
    show (encodeGifState cfg frames).records.length = frames.length
    rw [encodeGifState, runFrames_records_length]
    simp [initState]
  exact ⟨rfl, hrec, hrec⟩

/-- Witness for `frame_count_invariant` at a one-frame stream. -/
theorem frame_count_invariant_witness :
    ([(⟨0, 0, 8, 8, List.replicate 64 1, none, 0⟩ : GifFrame)].length ≤ 65535) ∧
    ((encodeGif ⟨1, 10, 0, 8, 8⟩
        [⟨0, 0, 8, 8, List.replicate 64 1, none, 0⟩]).1.frameCount = 1 ∧
     (encodeGif ⟨1, 10, 0, 8, 8⟩
        [⟨0, 0, 8, 8, List.replicate 64 1, none, 0⟩]).2.length = 1 ∧
     (encodeGif ⟨1, 10, 0, 8, 8⟩
        [⟨0, 0, 8, 8, List.replicate 64 1, none, 0⟩]).2.length =
       (encodeGif ⟨1, 10, 0, 8, 8⟩
        [⟨0, 0, 8, 8, List.replicate 64 1, none, 0⟩]).1.frameCount) :=
  ⟨by simp,
    frame_count_invariant ⟨1, 10, 0, 8, 8⟩
      [⟨0, 0, 8, 8, List.replicate 64 1, none, 0⟩] (by simp)⟩

/-- **C8 counterexample.** The legacy RVV2 variant does diff: with one
tile whose packed bytes are unchanged from the previous frame, the
emitted update list is empty — not the full tile list the claim's
"non-diffing" reading predicts — and the emitted record is the two
count bytes `[0, 0]` alone. -/
theorem legacy_nondiffing_counterexample :
    legacyDiffs 1 (some [[5]]) [[5]] = [] ∧
    legacyDiffs 1 (some [[5]]) [[5]] ≠
      (List.range 1).map (fun i => (⟨i, [[5]].getD i []⟩ : Update)) ∧
    legacyRecordBytes (legacyDiffs 1 (some [[5]]) [[5]]) = [0, 0] := by
  refine ⟨?_, ?_, ?_⟩ <;> decide

/-- **C8 (amended).** In the legacy RVV2 variant each per-frame record
is a flat update count (u16 LE) followed by one (tileIndex u16 LE,
tileData) pair per update with no skip compression; the first frame's
update list contains every tile, and each later frame's update list
contains exactly the tiles whose packed bytes changed from the
previous frame. -/
theorem legacy_record_format (tc : Nat) (prev tiles : List (List Nat))
    (diffs : List Update) :
    legacyRecordBytes diffs =
      u16le diffs.length ++ diffs.flatMap (fun d => u16le d.index ++ d.data) ∧
    (legacyDiffs tc none tiles).map (fun u => u.index) = List.range tc ∧
    (∀ i, i ∈ (legacyDiffs tc (some prev) tiles).map (fun u => u.index) ↔
        i < tc ∧ tiles.getD i [] ≠ prev.getD i []) ∧
    (legacyDiffs tc (some tiles) tiles).length = 0 := by
  refine ⟨rfl, map_index_range tc tiles,
    fun i => mem_map_index_filter tc prev tiles i, ?_⟩
  simp [legacyDiffs]

theorem getD_set_ne (l : List Nat) (i j a : Nat) (h : i ≠ j) :
    (l.set i a).getD j 0 = l.getD j 0 := by
  rw [List.getD_eq_getElem?_getD, List.getD_eq_getElem?_getD,
    List.getElem?_set_ne h]

theorem getD_set_self (l : List Nat) (i a : Nat) (h : i < l.length) :
    (l.set i a).getD i 0 = a := by
  rw [List.getD_eq_getElem?_getD, List.getElem?_set_self h]
  rfl

theorem and_one_eq_testBit (z : Nat) :
    z &&& 1 = if z.testBit 0 then 1 else 0 := by
  rw [Nat.and_one_is_mod, Nat.testBit_zero]
  rcases Nat.mod_two_eq_zero_or_one z with h | h <;> simp [h]

theorem getBit_eq_testBit (buf : List Nat) (n : Nat) :
    getBit buf n =
      if (buf.getD (n / 8) 0).testBit (7 - n % 8) then 1 else 0 := by
  rw [getBit, and_one_eq_testBit, Nat.testBit_shiftRight, Nat.add_zero]

theorem packBit_step (buf : List Nat) (n v : Nat) :
    packBit (buf, n % 8, n / 8) v =
      (buf.set (n / 8) (buf.getD (n / 8) 0 ||| v <<< (7 - n % 8)),
        (n + 1) % 8, (n + 1) / 8) := by
  simp only [packBit]
  by_cases h : n % 8 + 1 = 8
  · simp only [if_pos h]
    have h1 : (n + 1) % 8 = 0 := by omega
    have h2 : (n + 1) / 8 = n / 8 + 1 := by omega
    rw [h1, h2]
  · simp only [if_neg h]
    have h1 : (n + 1) % 8 = n % 8 + 1 := by omega
    have h2 : (n + 1) / 8 = n / 8 := by omega
    rw [h1, h2]

theorem testBit_small_shift (v s t : Nat) (hv : v ≤ 1) (hst : t ≠ s) :
    (v <<< s).testBit t = false := by
  rw [Nat.testBit_shiftLeft]
  by_cases h : s ≤ t
  · have ht : 1 ≤ t - s := by omega
    have : v < 2 ^ (t - s) := by
      calc v < 2 ^ 1 := by omega
      _ ≤ 2 ^ (t - s) := Nat.pow_le_pow_right (by omega) ht
    simp [Nat.testBit_lt_two_pow this]
  · simp [h]

theorem getBit_congr (buf buf2 : List Nat) (j : Nat)
    (h : buf.getD (j / 8) 0 = buf2.getD (j / 8) 0) :
    getBit buf j = getBit buf2 j := by
  rw [getBit, getBit, h]

theorem packBit_run (bs : List Nat) :
    ∀ (buf : List Nat) (n : Nat),
      (∀ v ∈ bs, v ≤ 1) →
      n + bs.length ≤ 8 * buf.length →
      (∀ j, buf.getD j 0 < 256) →
      (∀ j, n ≤ j → getBit buf j = 0) →
      ((List.foldl packBit (buf, n % 8, n / 8) bs).1.length = buf.length ∧
       (∀ j, (List.foldl packBit (buf, n % 8, n / 8) bs).1.getD j 0 < 256) ∧
       (∀ j, j < n →
         getBit (List.foldl packBit (buf, n % 8, n / 8) bs).1 j = getBit buf j) ∧
       (∀ k, k < bs.length →
         getBit (List.foldl packBit (buf, n % 8, n / 8) bs).1 (n + k) =
           bs.getD k 0) ∧
       (∀ j, n + bs.length ≤ j →
         getBit (List.foldl packBit (buf, n % 8, n / 8) bs).1 j = 0)) := by
  induction bs with
  | nil =>
      intro buf n _ _ h256 hz
      exact ⟨rfl, h256, fun j _ => rfl, fun k hk => absurd hk (by simp),
        fun j hj => hz j (by omega)⟩
  | cons v rest ih =>
      intro buf n hbits hcap h256 hz
      have hv : v ≤ 1 := hbits v (List.mem_cons_self v rest)
      have hlenbs : (v :: rest).length = rest.length + 1 := rfl
      have hnlt : n < 8 * buf.length := by
        rw [hlenbs] at hcap; omega
      have hidx : n / 8 < buf.length := by omega
      rw [List.foldl_cons, packBit_step]
      set b0 := buf.getD (n / 8) 0 with hb0
      set buf1 := buf.set (n / 8) (b0 ||| v <<< (7 - n % 8)) with hbuf1
      have hlen1 : buf1.length = buf.length := List.length_set buf _ _
      have hsame : buf1.getD (n / 8) 0 = b0 ||| v <<< (7 - n % 8) :=
        getD_set_self buf (n / 8) _ hidx
      have hother : ∀ j, j ≠ n / 8 → buf1.getD j 0 = buf.getD j 0 :=
        fun j hj => getD_set_ne buf (n / 8) j _ (fun he => hj he.symm)
      have h256' : ∀ j, buf1.getD j 0 < 256 := by
        intro j
        by_cases hj : j = n / 8
        · rw [hj, hsame]
          have hshl : v <<< (7 - n % 8) < 256 := by
            rw [Nat.shiftLeft_eq]
            have : (2 : Nat) ^ (7 - n % 8) ≤ 2 ^ 7 :=
              Nat.pow_le_pow_right (by omega) (by omega)
            have := h256 j
            nlinarith [this]
          have h8 : (256 : Nat) = 2 ^ 8 := by norm_num
          rw [h8]
          exact Nat.or_lt_two_pow (by rw [← h8]; exact h256 (n / 8)) (by rw [← h8]; exact hshl)
        · rw [hother j hj]; exact h256 j
      have hpres : ∀ j, j ≠ n → getBit buf1 j = getBit buf j := by
        intro j hj
        by_cases hb : j / 8 = n / 8
        · have hmod : j % 8 ≠ n % 8 := by omega
          rw [getBit_eq_testBit, getBit_eq_testBit, hb, hsame,
            Nat.testBit_or, testBit_small_shift v _ _ hv (by omega),
            Bool.or_false]
        · exact getBit_congr buf1 buf j (by rw [hother (j / 8) hb])
      have hnew : getBit buf1 n = v := by
        have hzb : b0.testBit (7 - n % 8) = false := by
          have := hz n (Nat.le_refl n)
          rw [getBit_eq_testBit] at this
          by_cases hb : b0.testBit (7 - n % 8)
          · rw [← hb0] at this; rw [if_pos hb] at this; omega
          · exact Bool.of_not_eq_true hb
        rw [getBit_eq_testBit, hsame, Nat.testBit_or, hzb, Bool.false_or,
          Nat.testBit_shiftLeft]
        have : (7 - n % 8 ≥ 7 - n % 8) = True := by simp
        rw [Nat.sub_self]
        interval_cases v
        · simp
        · simp
      have hz1 : ∀ j, n + 1 ≤ j → getBit buf1 j = 0 := by
        intro j hj
        rw [hpres j (by omega)]
        exact hz j (by omega)
      have hcap1 : (n + 1) + rest.length ≤ 8 * buf1.length := by
        rw [hlen1]
        have h2 := hcap
        rw [hlenbs] at h2
        omega
      obtain ⟨L, B, P, K, Z⟩ :=
        ih buf1 (n + 1) (fun w hw => hbits w (List.mem_cons_of_mem v hw))
          hcap1 h256' hz1
      refine ⟨L.trans hlen1, B, ?_, ?_, ?_⟩
      · intro j hj
        rw [P j (by omega)]
        exact hpres j (by omega)
      · intro k hk
        cases k with
        | zero =>
            simp only [Nat.add_zero]
            rw [P n (by omega), hnew]
            rfl
        | succ k' =>
            have hk' : k' < rest.length := by
              rw [hlenbs] at hk; omega
            have : n + (k' + 1) = (n + 1) + k' := by omega
            rw [this, K k' hk']
            rfl
      · intro j hj
        refine Z j ?_
        rw [hlenbs] at hj
        omega

theorem foldl_flatMap {α β γ : Type} (g : α → List β) (f : γ → β → γ) :
    ∀ (l : List α) (init : γ),
      List.foldl (fun st a => List.foldl f st (g a)) init l =
        List.foldl f init (l.flatMap g) := by
  intro l
  induction l with
  | nil => intro init; rfl
  | cons a tl ih =>
      intro init
      rw [List.flatMap_cons, List.foldl_append, List.foldl_cons]
      exact ih _

theorem foldl_congr_mem {α β : Type} (l : List α) (f g : β → α → β) :
    ∀ (init : β), (∀ acc, ∀ a ∈ l, f acc a = g acc a) →
      List.foldl f init l = List.foldl g init l := by
  induction l with
  | nil => intro init _; rfl
  | cons a tl ih =>
      intro init h
      rw [List.foldl_cons, List.foldl_cons,
        h init a (List.mem_cons_self a tl)]
      exact ih _ (fun acc b hb => h acc b (List.mem_cons_of_mem a hb))

theorem length_pixelBits (bpp p : Nat) : (pixelBits bpp p).length = bpp := by
  simp [pixelBits]

theorem getD_pixelBits (bpp p k : Nat) (hk : k < bpp) :
    (pixelBits bpp p).getD k 0 = (p >>> (bpp - 1 - k)) &&& 1 := by
  rw [List.getD_eq_getElem _ _ (by rw [length_pixelBits]; exact hk)]
  simp [pixelBits]

theorem length_flatMap_pixelBits (bpp : Nat) (pixels : List Nat) :
    (pixels.flatMap (pixelBits bpp)).length = pixels.length * bpp := by
  induction pixels with
  | nil => simp
  | cons p tl ih =>
      rw [List.flatMap_cons, List.length_append, length_pixelBits, ih]
      simp [Nat.succ_mul]
      omega

theorem pixelBits_le_one (bpp p : Nat) : ∀ v ∈ pixelBits bpp p, v ≤ 1 := by
  intro v hv
  simp only [pixelBits, List.mem_map, List.mem_range] at hv
  obtain ⟨k, _, rfl⟩ := hv
  exact Nat.and_le_right

theorem getD_flatMap_pixelBits (bpp : Nat) :
    ∀ (l : List Nat) (i k : Nat), i < l.length → k < bpp →
      (l.flatMap (pixelBits bpp)).getD (i * bpp + k) 0 =
        ((l.getD i 0) >>> (bpp - 1 - k)) &&& 1 := by
  intro l
  induction l with
  | nil => intro i k hi _; exact absurd hi (by simp)
  | cons p tl ih =>
      intro i k hi hk
      rw [List.flatMap_cons]
      cases i with
      | zero =>
          simp only [Nat.zero_mul, Nat.zero_add]
          rw [List.getD_append _ _ _ k (by rw [length_pixelBits]; exact hk)]
          exact getD_pixelBits bpp p k hk
      | succ i' =>
          have harith : (i' + 1) * bpp + k = bpp + (i' * bpp + k) := by ring
          rw [harith,
            List.getD_append_right _ _ _ _ (by rw [length_pixelBits]; omega),
            length_pixelBits, Nat.add_sub_cancel_left]
          have hi' : i' < tl.length := by
            simp only [List.length_cons] at hi; omega
          rw [ih i' k hi' hk]
          rfl

theorem bits_reconstruct (bpp p : Nat) (hp : p < 2 ^ bpp) :
    (List.range bpp).foldl
      (fun acc k => acc * 2 + ((p >>> (bpp - 1 - k)) &&& 1)) 0 = p := by
  suffices h : ∀ j, j ≤ bpp →
      (List.range j).foldl
        (fun acc k => acc * 2 + ((p >>> (bpp - 1 - k)) &&& 1)) 0 =
        p >>> (bpp - j) by
    have hb := h bpp (Nat.le_refl bpp)
    rwa [Nat.sub_self, Nat.shiftRight_zero] at hb
  intro j
  induction j with
  | zero =>
      intro _
      rw [Nat.sub_zero, Nat.shiftRight_eq_div_pow]
      exact (Nat.div_eq_of_lt hp).symm
  | succ j' ih =>
      intro hj
      rw [List.range_succ, List.foldl_append, List.foldl_cons, List.foldl_nil,
        ih (by omega)]
      have he : bpp - j' = (bpp - 1 - j') + 1 := by omega
      have ht : bpp - (j' + 1) = bpp - 1 - j' := by omega
      rw [he, Nat.shiftRight_succ, Nat.and_one_is_mod, ht]
      omega

theorem getD_replicate_zero (n j : Nat) :
    (List.replicate n (0 : Nat)).getD j 0 = 0 := by
  rw [List.getD_eq_getElem?_getD, List.getElem?_replicate]
  split <;> rfl

theorem map_range_getD (l : List Nat) :
    (List.range l.length).map (fun i => l.getD i 0) = l := by
  refine List.ext_getElem (by simp) ?_
  intro n h1 h2
  rw [List.getElem_map, List.getElem_range]
  exact List.getD_eq_getElem l 0 h2

/-- **C4.** For every `bpp ∈ {1,2,4,8}` and 64 pixel values each below
`2^bpp`, `packTile` yields exactly `64·bpp/8` bytes, all below 256,
such that bit `n` of the buffer (bit `n − 8N` from the MSB of byte
`N = n/8`) equals entry `n` of the bitstream formed by appending each
pixel's `bpp` low bits MSB-first in order; unpacking `bpp` bits per
pixel MSB-first reproduces the original 64 values exactly. -/
theorem tile_packing_roundtrip (bpp : Nat) (pixels : List Nat)
    (hbpp : bpp = 1 ∨ bpp = 2 ∨ bpp = 4 ∨ bpp = 8)
    (hlen : pixels.length = 64)
    (hval : ∀ p ∈ pixels, p < 2 ^ bpp) :
    (packTile bpp pixels).length = 64 * bpp / 8 ∧
    (∀ b ∈ packTile bpp pixels, b < 256) ∧
    (∀ n, n < 64 * bpp →
      getBit (packTile bpp pixels) n =
        (pixels.flatMap (pixelBits bpp)).getD n 0) ∧
    unpackTile bpp (packTile bpp pixels) = pixels := by
  have hm : (8 * 8 * bpp) >>> 3 = 8 * bpp := by
    rw [Nat.shiftRight_eq_div_pow]
    omega
  have hpack : packTile bpp pixels =
      (List.foldl packBit
        (List.replicate ((8 * 8 * bpp) >>> 3) 0, 0 % 8, 0 / 8)
        (pixels.flatMap (pixelBits bpp))).1 := by
    rw [packTile, foldl_flatMap]
  have hbl : (pixels.flatMap (pixelBits bpp)).length = 64 * bpp := by
    rw [length_flatMap_pixelBits, hlen]
  have hb1 : ∀ v ∈ pixels.flatMap (pixelBits bpp), v ≤ 1 := by
    intro v hv
    rw [List.mem_flatMap] at hv
    obtain ⟨p, _, hmem⟩ := hv
    exact pixelBits_le_one bpp p v hmem
  have hlen0 : (List.replicate ((8 * 8 * bpp) >>> 3) (0 : Nat)).length =
      8 * bpp := by
    rw [List.length_replicate, hm]
  obtain ⟨L, B, _, K, _⟩ := packBit_run (pixels.flatMap (pixelBits bpp))
    (List.replicate ((8 * 8 * bpp) >>> 3) 0) 0 hb1
    (by rw [hlen0, hbl]; omega)
    (fun j => by rw [getD_replicate_zero]; omega)
    (fun j _ => by rw [getBit, getD_replicate_zero]; simp)
  refine ⟨?_, ?_, ?_, ?_⟩
  · rw [hpack, L, hlen0]
    omega
  · intro b hb
    rw [hpack, List.mem_iff_getElem] at hb
    obtain ⟨idx, hidx, rfl⟩ := hb
    rw [← List.getD_eq_getElem _ 0 hidx]
    exact B idx
  · intro n hn
    have hk := K n (by rw [hbl]; exact hn)
    rw [Nat.zero_add] at hk
    rw [hpack]
    exact hk
  · rw [unpackTile]
    have hmap : ∀ i ∈ List.range 64,
        unpackPixel bpp (packTile bpp pixels) i = pixels.getD i 0 := by
      intro i hi
      rw [List.mem_range] at hi
      rw [unpackPixel]
      have hcong : ∀ acc, ∀ k ∈ List.range bpp,
          acc * 2 + getBit (packTile bpp pixels) (i * bpp + k) =
            acc * 2 + ((pixels.getD i 0 >>> (bpp - 1 - k)) &&& 1) := by
        intro acc k hk
        rw [List.mem_range] at hk
        have hrange : i * bpp + k < 64 * bpp := by
          have h1 : i * bpp + k < (i + 1) * bpp := by
            rw [Nat.succ_mul]
            omega
          have h2 : (i + 1) * bpp ≤ 64 * bpp :=
            Nat.mul_le_mul_right bpp (by omega)
          omega
        have hbit := K (i * bpp + k) (by rw [hbl]; exact hrange)
        rw [Nat.zero_add] at hbit
        rw [hpack, hbit,
          getD_flatMap_pixelBits bpp pixels i k (by rw [hlen]; exact hi) hk]
      rw [foldl_congr_mem _ _ _ 0 hcong]
      have hi' : i < pixels.length := by rw [hlen]; exact hi
      have hp : pixels.getD i 0 < 2 ^ bpp := by
        rw [List.getD_eq_getElem _ _ hi']
        exact hval _ (List.getElem_mem hi')
      exact bits_reconstruct bpp (pixels.getD i 0) hp
    rw [List.map_congr_left hmap, ← hlen]
    exact map_range_getD pixels

/-- Witness for `tile_packing_roundtrip` at `bpp = 2` on 64 pixels of
value 1. -/
theorem tile_packing_roundtrip_witness :
    ((2 : Nat) = 1 ∨ (2 : Nat) = 2 ∨ (2 : Nat) = 4 ∨ (2 : Nat) = 8) ∧
    (List.replicate 64 (1 : Nat)).length = 64 ∧
    (∀ p ∈ List.replicate 64 (1 : Nat), p < 2 ^ 2) ∧
    ((packTile 2 (List.replicate 64 1)).length = 64 * 2 / 8 ∧
     (∀ b ∈ packTile 2 (List.replicate 64 1), b < 256) ∧
     (∀ n, n < 64 * 2 →
       getBit (packTile 2 (List.replicate 64 1)) n =
         ((List.replicate 64 1).flatMap (pixelBits 2)).getD n 0) ∧
     unpackTile 2 (packTile 2 (List.replicate 64 1)) = List.replicate 64 1) :=
  ⟨Or.inr (Or.inl rfl), by simp,
    by
      intro p hp
      have := List.eq_of_mem_replicate hp
      omega,
    tile_packing_roundtrip 2 (List.replicate 64 1) (Or.inr (Or.inl rfl))
      (by simp)
      (by
        intro p hp
        have := List.eq_of_mem_replicate hp
        omega)⟩

theorem blitPixel_length (W : Nat) (f : GifFrame) (acc : List Nat) (y x : Nat) :
    (blitPixel W f acc y x).length = acc.length := by
  cases htr : f.transparentIndex with
  | none =>
      simp only [blitPixel, htr]
      exact List.length_set acc _ _
  | some t =>
      simp only [blitPixel, htr]
      by_cases h : f.pixels.getD (y * f.width + x) 0 = t
      · rw [if_pos h]
      · rw [if_neg h]
        exact List.length_set acc _ _

theorem blitPixel_getD_ne (W : Nat) (f : GifFrame) (acc : List Nat)
    (y x q : Nat) (h : q ≠ (f.top + y) * W + (f.left + x)) :
    (blitPixel W f acc y x).getD q 0 = acc.getD q 0 := by
  cases htr : f.transparentIndex with
  | none =>
      simp only [blitPixel, htr]
      exact getD_set_ne acc _ q _ (fun he => h he.symm)
  | some t =>
      simp only [blitPixel, htr]
      by_cases hp : f.pixels.getD (y * f.width + x) 0 = t
      · rw [if_pos hp]
      · rw [if_neg hp]
        exact getD_set_ne acc _ q _ (fun he => h he.symm)

theorem blitPixel_getD_pos (W : Nat) (f : GifFrame) (acc : List Nat)
    (y x : Nat) (hpos : (f.top + y) * W + (f.left + x) < acc.length) :
    (blitPixel W f acc y x).getD ((f.top + y) * W + (f.left + x)) 0 =
      if copiesPixel f (y * f.width + x) then f.pixels.getD (y * f.width + x) 0
      else acc.getD ((f.top + y) * W + (f.left + x)) 0 := by
  cases htr : f.transparentIndex with
  | none =>
      simp only [blitPixel, copiesPixel, htr]
      exact getD_set_self acc _ _ hpos
  | some t =>
      simp only [blitPixel, copiesPixel, htr]
      by_cases hp : f.pixels.getD (y * f.width + x) 0 = t
      · rw [if_pos hp, if_neg (by rw [hp]; simp)]
      · rw [if_neg hp,
          if_pos ((Bool.not_eq_true' _).mpr (beq_eq_false_iff_ne.mpr hp))]
        exact getD_set_self acc _ _ hpos

theorem row_hit_iff (W t l w yq xq : Nat) (hx : xq < W) (hlw : l + w ≤ W) :
    (t * W + l ≤ yq * W + xq ∧ yq * W + xq < t * W + l + w) ↔
      (yq = t ∧ l ≤ xq ∧ xq < l + w) := by
  constructor
  · rintro ⟨h1, h2⟩
    rcases Nat.lt_trichotomy yq t with hlt | heq | hgt
    · exfalso
      have hm : (yq + 1) * W ≤ t * W := Nat.mul_le_mul_right W hlt
      rw [Nat.succ_mul] at hm
      omega
    · subst heq
      omega
    · exfalso
      have hm : (t + 1) * W ≤ yq * W := Nat.mul_le_mul_right W hgt
      rw [Nat.succ_mul] at hm
      omega
  · rintro ⟨rfl, hl, hr⟩
    omega

theorem blitRow_getD (W : Nat) (f : GifFrame) (y : Nat) :
    ∀ (w : Nat) (acc : List Nat),
      (f.top + y) * W + f.left + w ≤ acc.length →
      (((List.range w).foldl (fun a x => blitPixel W f a y x) acc).length =
          acc.length ∧
       ∀ q,
         ((List.range w).foldl (fun a x => blitPixel W f a y x) acc).getD q 0 =
           if (f.top + y) * W + f.left ≤ q ∧
               q < (f.top + y) * W + f.left + w ∧
               copiesPixel f
                 (y * f.width + (q - ((f.top + y) * W + f.left))) = true
           then f.pixels.getD (y * f.width + (q - ((f.top + y) * W + f.left))) 0
           else acc.getD q 0) := by
  intro w
  induction w with
  | zero =>
      intro acc _
      refine ⟨rfl, fun q => ?_⟩
      rw [if_neg (by rintro ⟨h1, h2, _⟩; omega)]
      rfl
  | succ w' ih =>
      intro acc hcap
      obtain ⟨ihlen, ihget⟩ := ih acc (by omega)
      simp only [List.range_succ, List.foldl_append, List.foldl_cons,
        List.foldl_nil]
      constructor
      · rw [blitPixel_length, ihlen]
      · intro q
        by_cases hq : q = (f.top + y) * W + f.left + w'
        · subst hq
          have hassoc : (f.top + y) * W + f.left + w' =
              (f.top + y) * W + (f.left + w') := by omega
          rw [hassoc,
            blitPixel_getD_pos _ _ _ _ _ (by rw [ihlen]; omega)]
          have hoff : (f.top + y) * W + (f.left + w') -
              ((f.top + y) * W + f.left) = w' := by omega
          rw [hoff]
          by_cases hc : copiesPixel f (y * f.width + w') = true
          · rw [if_pos hc, if_pos ⟨by omega, by omega, hc⟩]
          · rw [if_neg hc, ihget, if_neg (by rintro ⟨h1, h2, _⟩; omega),
              if_neg (by rintro ⟨_, _, hc2⟩; exact hc hc2)]
        · rw [blitPixel_getD_ne _ _ _ _ _ _ (by omega), ihget q]
          by_cases hcond : (f.top + y) * W + f.left ≤ q ∧
              q < (f.top + y) * W + f.left + w' ∧
              copiesPixel f
                (y * f.width + (q - ((f.top + y) * W + f.left))) = true
          · rw [if_pos hcond, if_pos ⟨hcond.1, by omega, hcond.2.2⟩]
          · rw [if_neg hcond, if_neg]
            rintro ⟨h1, h2, hc⟩
            exact hcond ⟨h1, by omega, hc⟩

theorem blitRows_getD (W H : Nat) (f : GifFrame) (hx : f.left + f.width ≤ W) :
    ∀ (hgt : Nat) (acc : List Nat), acc.length = W * H → f.top + hgt ≤ H →
      (((List.range hgt).foldl
          (fun a y => (List.range f.width).foldl
            (fun a2 x => blitPixel W f a2 y x) a) acc).length = acc.length ∧
       ∀ yq xq, xq < W →
         ((List.range hgt).foldl
            (fun a y => (List.range f.width).foldl
              (fun a2 x => blitPixel W f a2 y x) a) acc).getD (yq * W + xq) 0 =
           if f.top ≤ yq ∧ yq < f.top + hgt ∧ f.left ≤ xq ∧
               xq < f.left + f.width ∧
               copiesPixel f ((yq - f.top) * f.width + (xq - f.left)) = true
           then f.pixels.getD ((yq - f.top) * f.width + (xq - f.left)) 0
           else acc.getD (yq * W + xq) 0) := by
  intro hgt
  induction hgt with
  | zero =>
      intro acc _ _
      refine ⟨rfl, fun yq xq _ => ?_⟩
      rw [if_neg (by rintro ⟨h1, h2, _⟩; omega)]
      rfl
  | succ h' ih =>
      intro acc hlen hh
      obtain ⟨ihlen, ihget⟩ := ih acc hlen (by omega)
      simp only [List.range_succ, List.foldl_append, List.foldl_cons,
        List.foldl_nil]
      have hcapmul : ((f.top + h') + 1) * W ≤ H * W :=
        Nat.mul_le_mul_right W (by omega)
      rw [Nat.succ_mul] at hcapmul
      have hWH : W * H = H * W := Nat.mul_comm W H
      obtain ⟨rlen, rget⟩ := blitRow_getD W f h' f.width
        ((List.range h').foldl
          (fun a y => (List.range f.width).foldl
            (fun a2 x => blitPixel W f a2 y x) a) acc)
        (by rw [ihlen, hlen]; omega)
      constructor
      · rw [rlen, ihlen]
      · intro yq xq hxq
        rw [rget (yq * W + xq)]
        by_cases hhit : yq = f.top + h' ∧ f.left ≤ xq ∧ xq < f.left + f.width
        · obtain ⟨hyq, hxl, hxr⟩ := hhit
          subst hyq
          have hoff : (f.top + h') * W + xq - ((f.top + h') * W + f.left) =
              xq - f.left := by omega
          have hyoff : f.top + h' - f.top = h' := by omega
          rw [hoff, hyoff]
          by_cases hc : copiesPixel f (h' * f.width + (xq - f.left)) = true
          · rw [if_pos ⟨by omega, by omega, hc⟩,
              if_pos ⟨by omega, by omega, hxl, hxr, hc⟩]
          · rw [if_neg (by rintro ⟨_, _, hc2⟩; exact hc hc2),
              ihget (f.top + h') xq hxq,
              if_neg (by rintro ⟨_, h2, _⟩; omega)]
            rw [if_neg (by rintro ⟨_, _, _, _, hc2⟩; exact hc hc2)]
        · rw [if_neg (by
              rintro ⟨h1, h2, _⟩
              exact hhit
                ((row_hit_iff W (f.top + h') f.left f.width yq xq hxq hx).mp
                  ⟨h1, h2⟩)),
            ihget yq xq hxq]
          refine if_congr ?_ rfl rfl
          constructor
          · rintro ⟨a, b, c, d, e⟩
            refine ⟨a, ?_, c, d, e⟩
            by_cases hyq : yq = f.top + h'
            · exact absurd ⟨hyq, c, d⟩ hhit
            · omega
          · rintro ⟨a, b, c, d, e⟩
            exact ⟨a, by omega, c, d, e⟩

/-- **C9.** Compositing one frame writes exactly the canvas pixels
inside the frame's `(left, top, width, height)` rectangle whose source
sample is copied (no transparent index declared, or the sample differs
from it); every canvas pixel outside the rectangle, and every
in-rectangle pixel whose source sample equals the transparent value,
retains its previous value. -/
theorem blit_semantics (W H : Nat) (f : GifFrame) (fb : List Nat)
    (hfb : fb.length = W * H)
    (hxw : f.left + f.width ≤ W)
    (hyh : f.top + f.height ≤ H) :
    (blitFrame W fb f).length = fb.length ∧
    ∀ yq xq, xq < W →
      (blitFrame W fb f).getD (yq * W + xq) 0 =
        if f.top ≤ yq ∧ yq < f.top + f.height ∧ f.left ≤ xq ∧
            xq < f.left + f.width ∧
            copiesPixel f ((yq - f.top) * f.width + (xq - f.left)) = true
        then f.pixels.getD ((yq - f.top) * f.width + (xq - f.left)) 0
        else fb.getD (yq * W + xq) 0 := by
  obtain ⟨hl, hg⟩ := blitRows_getD W H f hxw f.height fb hfb hyh
  exact ⟨hl, hg⟩

/-- Witness for `blit_semantics`: a 2×2 frame at offset (1,1) with
transparent index 7 composited onto an 8×8 canvas of constant 3. -/
theorem blit_semantics_witness :
    (List.replicate 64 (3 : Nat)).length = 8 * 8 ∧
    ((⟨1, 1, 2, 2, [9, 7, 9, 7], some 7, 0⟩ : GifFrame).left +
        (⟨1, 1, 2, 2, [9, 7, 9, 7], some 7, 0⟩ : GifFrame).width ≤ 8) ∧
    ((⟨1, 1, 2, 2, [9, 7, 9, 7], some 7, 0⟩ : GifFrame).top +
        (⟨1, 1, 2, 2, [9, 7, 9, 7], some 7, 0⟩ : GifFrame).height ≤ 8) ∧
    ((blitFrame 8 (List.replicate 64 3)
        ⟨1, 1, 2, 2, [9, 7, 9, 7], some 7, 0⟩).length =
      (List.replicate 64 (3 : Nat)).length ∧
     ∀ yq xq, xq < 8 →
       (blitFrame 8 (List.replicate 64 3)
          ⟨1, 1, 2, 2, [9, 7, 9, 7], some 7, 0⟩).getD (yq * 8 + xq) 0 =
         if (⟨1, 1, 2, 2, [9, 7, 9, 7], some 7, 0⟩ : GifFrame).top ≤ yq ∧
             yq < (⟨1, 1, 2, 2, [9, 7, 9, 7], some 7, 0⟩ : GifFrame).top +
               (⟨1, 1, 2, 2, [9, 7, 9, 7], some 7, 0⟩ : GifFrame).height ∧
             (⟨1, 1, 2, 2, [9, 7, 9, 7], some 7, 0⟩ : GifFrame).left ≤ xq ∧
             xq < (⟨1, 1, 2, 2, [9, 7, 9, 7], some 7, 0⟩ : GifFrame).left +
               (⟨1, 1, 2, 2, [9, 7, 9, 7], some 7, 0⟩ : GifFrame).width ∧
             copiesPixel (⟨1, 1, 2, 2, [9, 7, 9, 7], some 7, 0⟩ : GifFrame)
               ((yq - (⟨1, 1, 2, 2, [9, 7, 9, 7], some 7, 0⟩ : GifFrame).top) *
                   (⟨1, 1, 2, 2, [9, 7, 9, 7], some 7, 0⟩ : GifFrame).width +
                 (xq - (⟨1, 1, 2, 2, [9, 7, 9, 7], some 7,
                   0⟩ : GifFrame).left)) = true
         then (⟨1, 1, 2, 2, [9, 7, 9, 7], some 7, 0⟩ : GifFrame).pixels.getD
           ((yq - (⟨1, 1, 2, 2, [9, 7, 9, 7], some 7, 0⟩ : GifFrame).top) *
               (⟨1, 1, 2, 2, [9, 7, 9, 7], some 7, 0⟩ : GifFrame).width +
             (xq - (⟨1, 1, 2, 2, [9, 7, 9, 7], some 7, 0⟩ : GifFrame).left)) 0
         else (List.replicate 64 (3 : Nat)).getD (yq * 8 + xq) 0) :=
  ⟨by simp, by decide, by decide,
    blit_semantics 8 8 ⟨1, 1, 2, 2, [9, 7, 9, 7], some 7, 0⟩
      (List.replicate 64 3) (by simp) (by decide) (by decide)⟩

/-- Witness for `quantizer_spec` at concrete channel values. -/
theorem quantizer_spec_witness :
    (31 : Nat) ≤ 255 ∧ (223 : Nat) ≤ 255 ∧ (64 : Nat) ≤ 255 ∧
    (rgb332 31 223 64 = (31 >>> 5) ||| ((223 >>> 5) <<< 3) ||| (64 &&& 0b11000000) ∧
     rgb333 31 223 64 = ((64 >>> 5) <<< 6) ||| ((223 >>> 5) <<< 3) ||| (31 >>> 5) ∧
     rgb332 255 255 255 = 0b11111111 ∧
     rgb332 0 0 0 = 0 ∧
     rgb333 31 223 64 < 512) :=
  ⟨by decide, by decide, by decide,
    quantizer_spec 31 223 64 (by decide) (by decide) (by decide)⟩

end RVV
